import Mathlib

/-!
Verification of the DeepXeno training and evaluation orchestration
(`code/train.py` and `code/test.py`).  The external collaborators — model,
encoder, data provider and batch loaders — are opaque parameters, as in the
design document; what is embedded here is the logic owned by this
repository: the training-loop state machine (best-loss tracking, patience
based early stopping, checkpoint writes, per-epoch logging), the per-epoch
metric aggregation, the numbered-checkpoint condition, the optimizer
selection under `use_scheduler`, the transfer-learning load branch, and the
ROC / precision-recall curve computation used by evaluation.

Losses, scores and labels are modelled as rationals; fallible computations
(Python exceptions) are modelled with `Except`.
-/

namespace DeepXeno

/-- State carried across iterations of the epoch loop in `train_model`
(`train.py` lines 36-38 and the mutations in lines 44-129).  `bestCkpt`
records the 0-based epoch index whose parameters the `-best.pt` file on
disk currently holds (`none` before any write); `logLines` counts the
per-epoch log records emitted at line 106. -/
structure TrainState where
  bestLoss : Option ℚ
  epochsNoImprove : ℕ
  earlyStop : Bool
  bestCkpt : Option ℕ
  epochsRun : ℕ
  logLines : ℕ
deriving DecidableEq

/-- The comparison `avg_val_loss < best_loss` of `train.py` line 118, where
`best_loss` starts as `float('inf')` (line 36), modelled as `none`. -/
def improves (l : ℚ) : Option ℚ → Bool
  | none => true
  | some b => decide (l < b)

/-- The numbered-checkpoint condition of `train.py` line 114,
`(epoch+1 >= 30) and (epoch+1 % 5 == 0)`.  Python's `%` binds tighter than
`+`, so the second conjunct is `epoch + (1 % 5) == 0`; Lean's `%` binds the
same way, and the expression below reproduces the source parse exactly. -/
def ckptCond (epoch : ℕ) : Bool :=
  decide (30 ≤ epoch + 1) && decide (epoch + 1 % 5 = 0)

/-- The checkpointing policy as the spec words it: a numbered snapshot is
written when the 1-based epoch number is a multiple of 5 and at least 30.
Stated from the spec, to be compared against `ckptCond` from the source. -/
def specCkptCond (epoch : ℕ) : Bool :=
  decide ((epoch + 1) % 5 = 0) && decide (30 ≤ epoch + 1)

/-- One epoch's worth of end-of-epoch bookkeeping in `train_model`
(`train.py` lines 106-129), given the epoch's average validation loss: the
log line of line 106, then the best-checkpoint / early-stopping block of
lines 117-129.  The batch-level metric computation that produces the loss
is factored out (see `epochMetrics`). -/
def epochStep (patience : ℕ) (s : TrainState) (avgValLoss : ℚ) : TrainState :=
  if improves avgValLoss s.bestLoss then
    { s with epochsRun := s.epochsRun + 1, logLines := s.logLines + 1,
             bestLoss := some avgValLoss, bestCkpt := some s.epochsRun,
             epochsNoImprove := 0 }
  else
    { s with epochsRun := s.epochsRun + 1, logLines := s.logLines + 1,
             epochsNoImprove := s.epochsNoImprove + 1,
             earlyStop := s.earlyStop || decide (patience ≤ s.epochsNoImprove + 1) }

/-- Initial loop state (`train.py` lines 36-38). -/
def initState : TrainState := ⟨none, 0, false, none, 0, 0⟩

/-- The epoch loop of `train.py` lines 44-47 over a given sequence of
per-epoch average validation losses: the early-stop flag is tested at the
top of each iteration and breaks the loop; otherwise the epoch runs. -/
def runEpochs (patience : ℕ) (s : TrainState) : List ℚ → TrainState
  | [] => s
  | l :: ls => if s.earlyStop then s else runEpochs patience (epochStep patience s l) ls

/-- The optimizer actually used for training: either the configured class
with its configured arguments, or Adam with an explicit learning rate. -/
inductive Optimizer where
  | fromConfig (id : ℕ)
  | adam (lr : ℚ)
deriving DecidableEq

/-- The optimizer selection of `train.py` lines 197-219: the configured
optimizer is built first, and when `use_scheduler` is set it is rebound to
`torch.optim.Adam(model.parameters(), lr=0)` (line 204). -/
def chooseOptimizer (useScheduler : Bool) (configured : Optimizer) : Optimizer :=
  if useScheduler then Optimizer.adam 0 else configured

/-- Result of the transfer-learning block. -/
inductive TransferOutcome where
  | loaded
  | scratch
  | notRequested
deriving DecidableEq

/-- The transfer-learning branch of `main` (`train.py` lines 178-194):
when `Train.transfer` is set and the derived checkpoint file exists, the
saved weights are loaded (`loadWeights` models the fallible
`torch.load` + `load_state_dict` call); when the file does not exist the
code only prints a message and falls through to training from scratch,
calling no fallible operation. -/
def transferLoad (transfer fileExists : Bool) (loadWeights : Except String Unit) :
    Except String TransferOutcome :=
  if transfer then
    if fileExists then
      match loadWeights with
      | .ok _ => .ok .loaded
      | .error e => .error e
    else .ok .scratch
  else .ok .notRequested

/-- One mini-batch of an epoch, as seen by the loop body: the model's
output tensor, the label tensor, and the scalar loss the criterion (plus
optional regularization) produced for the batch.  Model, criterion and
loader are the opaque collaborators that produce these values. -/
structure EpochBatch where
  outputs : List ℚ
  labels : List ℚ
  loss : ℚ
deriving DecidableEq

/-- The thresholding `predicted = (outputs > 0.5).float()` of `train.py`
lines 79 and 98, per element. -/
def predictedLabel (o : ℚ) : ℚ :=
  if (1 : ℚ) / 2 < o then 1 else 0

/-- `(predicted == Y).sum().item()` for one batch (`train.py` lines 80 and
99). -/
def batchCorrect (b : EpochBatch) : ℕ :=
  ((b.outputs.zip b.labels).filter fun p => predictedLabel p.1 == p.2).length

/-- `Y.size(0)` for one batch (`train.py` lines 81 and 100). -/
def batchSize (b : EpochBatch) : ℕ :=
  b.labels.length

/-- Python division, which raises `ZeroDivisionError` on a zero
denominator. -/
def safeDiv (a b : ℚ) : Except String ℚ :=
  if b = 0 then .error "ZeroDivisionError" else .ok (a / b)

/-- The per-epoch metrics logged at `train.py` line 106. -/
structure EpochMetrics where
  trainAcc : ℚ
  valAcc : ℚ
  avgTrainLoss : ℚ
  avgValLoss : ℚ
deriving DecidableEq

/-- The per-epoch metric aggregation of `train.py` lines 50-103: running
loss and accuracy sums over the train batches, then over the validation
batches, divided — in source order and with no emptiness guard — by
`len(train_loader)` (line 83), `total_train` (line 84), `len(val_loader)`
(line 102) and `total_val` (line 103). -/
def epochMetrics (train val : List EpochBatch) : Except String EpochMetrics :=
  match safeDiv ((train.map EpochBatch.loss).sum) (train.length : ℚ) with
  | .error e => .error e
  | .ok avgTrainLoss =>
    match safeDiv ((train.map batchCorrect).sum : ℚ) ((train.map batchSize).sum : ℚ) with
    | .error e => .error e
    | .ok trainAcc =>
      match safeDiv ((val.map EpochBatch.loss).sum) (val.length : ℚ) with
      | .error e => .error e
      | .ok avgValLoss =>
        match safeDiv ((val.map batchCorrect).sum : ℚ) ((val.map batchSize).sum : ℚ) with
        | .error e => .error e
        | .ok valAcc => .ok ⟨trainAcc, valAcc, avgTrainLoss, avgValLoss⟩

/-- One full epoch of `train_model`: metric aggregation over the epoch's
train and validation batches, then the logging / checkpoint / early-stop
bookkeeping of lines 106-129.  A Python exception in the aggregation
aborts the epoch before any log line is written. -/
def runEpochData (patience : ℕ) (s : TrainState) (d : List EpochBatch × List EpochBatch) :
    Except String TrainState :=
  match epochMetrics d.1 d.2 with
  | .error e => .error e
  | .ok m => .ok (epochStep patience s m.avgValLoss)

/-- `train_model` (`train.py` lines 34-129), driven by the per-epoch
contents of the train and validation loaders (one pair per epoch of
`range(num_epochs)`); an uncaught exception propagates and ends the run. -/
def train_model (patience : ℕ) (s : TrainState) :
    List (List EpochBatch × List EpochBatch) → Except String TrainState
  | [] => .ok s
  | d :: ds =>
    if s.earlyStop then .ok s
    else
      match runEpochData patience s d with
      | .error e => .error e
      | .ok s' => train_model patience s' ds

/-- Every error `safeDiv` can produce is a `ZeroDivisionError`. -/
theorem safeDiv_error {a b : ℚ} {e : String} (h : safeDiv a b = .error e) :
    e = "ZeroDivisionError" := by
  unfold safeDiv at h
  split at h
  · exact (Except.error.injEq _ _).mp h.symm
  · exact absurd h (by simp)

/-- Claim C1: the source condition at `train.py` line 114 never fires — for
every epoch index the numbered-checkpoint condition evaluates to `false`
(Python parses `epoch+1 % 5 == 0` as `epoch + (1 % 5) == 0`, which demands
`epoch + 1 = 0`), while the condition the spec describes holds at epoch
index 29 (1-based epoch 30).  So the claimed snapshot at epoch 30 is never
written: the code contradicts the stated checkpointing policy. -/
theorem checkpoint_condition_never_fires :
    (∀ epoch : ℕ, ckptCond epoch = false) ∧
    specCkptCond 29 = true ∧ ckptCond 29 = false := by
  refine ⟨fun epoch => ?_, by decide, by decide⟩
  simp [ckptCond]

/-- Claim C9: whenever `use_scheduler` is true, the optimizer put into the
training loop is Adam with learning rate 0, whatever optimizer the
configuration requested — so the configured choice has no effect. -/
theorem scheduler_replaces_optimizer :
    ∀ c c' : Optimizer, chooseOptimizer true c = Optimizer.adam 0 ∧
      chooseOptimizer true c = chooseOptimizer true c' := by
  intro c c'
  exact ⟨rfl, rfl⟩

/-- Claim C7: with transfer learning enabled and the checkpoint file
missing, the entry point does not raise — it returns normally and proceeds
from scratch, regardless of how the (never invoked) weight load would have
behaved; when the file exists and the load succeeds, the weights are
loaded before training. -/
theorem transfer_missing_checkpoint_graceful :
    ∀ loadWeights : Except String Unit,
      transferLoad true false loadWeights = .ok .scratch ∧
      transferLoad true true (.ok ()) = .ok .loaded := by
  intro loadWeights
  exact ⟨rfl, rfl⟩

/-- Claim C3: end-of-epoch bookkeeping, for a loop state that has not
early-stopped.  If the average validation loss strictly improves on the
best so far, the best loss becomes the new loss, the best checkpoint is
(over)written with this epoch's parameters, and the no-improvement counter
resets to 0 (and the early-stop flag stays down); otherwise the counter
increments by 1 and the early-stop flag is raised exactly when the counter
reaches (or exceeds) the configured patience. -/
theorem epoch_end_update (patience : ℕ) (s : TrainState) (l : ℚ)
    (hstop : s.earlyStop = false) :
    (improves l s.bestLoss = true →
      (epochStep patience s l).bestLoss = some l ∧
      (epochStep patience s l).bestCkpt = some s.epochsRun ∧
      (epochStep patience s l).epochsNoImprove = 0 ∧
      (epochStep patience s l).earlyStop = false) ∧
    (improves l s.bestLoss = false →
      (epochStep patience s l).epochsNoImprove = s.epochsNoImprove + 1 ∧
      (epochStep patience s l).bestLoss = s.bestLoss ∧
      (epochStep patience s l).bestCkpt = s.bestCkpt ∧
      ((epochStep patience s l).earlyStop = true ↔
        patience ≤ s.epochsNoImprove + 1)) := by
  constructor
  · intro himp
    simp [epochStep, himp, hstop]
  · intro himp
    simp [epochStep, himp, hstop]

/-- Witness for `epoch_end_update` at a concrete state and loss, covering
both the improving and (on a second state) the non-improving branch. -/
theorem epoch_end_update_witness :
    (initState.earlyStop = false ∧
      (improves 1 initState.bestLoss = true →
        (epochStep 2 initState 1).bestLoss = some 1 ∧
        (epochStep 2 initState 1).bestCkpt = some initState.epochsRun ∧
        (epochStep 2 initState 1).epochsNoImprove = 0 ∧
        (epochStep 2 initState 1).earlyStop = false) ∧
      (improves 1 initState.bestLoss = false →
        (epochStep 2 initState 1).epochsNoImprove = initState.epochsNoImprove + 1 ∧
        (epochStep 2 initState 1).bestLoss = initState.bestLoss ∧
        (epochStep 2 initState 1).bestCkpt = initState.bestCkpt ∧
        ((epochStep 2 initState 1).earlyStop = true ↔
          2 ≤ initState.epochsNoImprove + 1))) :=
  ⟨rfl, epoch_end_update 2 initState 1 rfl⟩

/-- Claim C10: the metric aggregation divides by batch and sample counts
with no guard, so an empty train or validation loader makes every epoch
raise `ZeroDivisionError` — aborting `train_model` before any metric is
logged — rather than log metrics. -/
theorem empty_loader_division_error (patience : ℕ)
    (train val : List EpochBatch) (rest : List (List EpochBatch × List EpochBatch))
    (h : train = [] ∨ val = []) :
    epochMetrics train val = .error "ZeroDivisionError" ∧
    train_model patience initState ((train, val) :: rest) = .error "ZeroDivisionError" := by
  have key : epochMetrics train val = .error "ZeroDivisionError" := by
    rcases h with h | h
    · subst h
      simp [epochMetrics, safeDiv]
    · subst h
      unfold epochMetrics
      cases h1 : safeDiv ((train.map EpochBatch.loss).sum) (train.length : ℚ) with
      | error e => simp [safeDiv_error h1]
      | ok v1 =>
        cases h2 : safeDiv ((train.map batchCorrect).sum : ℚ)
            ((train.map batchSize).sum : ℚ) with
        | error e => simp [safeDiv_error h2]
        | ok v2 => simp [safeDiv]
  refine ⟨key, ?_⟩
  simp [train_model, runEpochData, key, initState]

/-- Witness for `empty_loader_division_error`: an empty train loader with a
one-batch validation loader raises instead of logging. -/
theorem empty_loader_division_error_witness :
    (([] : List EpochBatch) = [] ∨ ([⟨[1], [1], 1⟩] : List EpochBatch) = []) ∧
    (epochMetrics [] [⟨[1], [1], 1⟩] = .error "ZeroDivisionError" ∧
     train_model 1 initState [(([] : List EpochBatch), [⟨[1], [1], 1⟩])] =
       .error "ZeroDivisionError") :=
  ⟨Or.inl rfl, empty_loader_division_error 1 [] [⟨[1], [1], 1⟩] [] (Or.inl rfl)⟩

/-- Claim C8: a run with `num_epochs = 1` and non-empty train and
validation loaders (with at least one sample each, losses being finite
rationals) succeeds, writes exactly one per-epoch log line, and writes the
best checkpoint at epoch 0 — the first finite validation loss always beats
the initial best loss of infinity. -/
theorem single_epoch_run (patience : ℕ) (t v : List EpochBatch)
    (ht : t ≠ []) (hv : v ≠ []) (hts : (t.map batchSize).sum ≠ 0)
    (hvs : (v.map batchSize).sum ≠ 0) :
    ∃ s : TrainState, train_model patience initState [(t, v)] = .ok s ∧
      s.logLines = 1 ∧ s.bestCkpt = some 0 ∧ ∃ m : ℚ, s.bestLoss = some m := by
  have h1 : (t.length : ℚ) ≠ 0 :=
    Nat.cast_ne_zero.mpr fun h => ht (List.length_eq_zero.mp h)
  have h2 : ((t.map batchSize).sum : ℚ) ≠ 0 := Nat.cast_ne_zero.mpr hts
  have h3 : (v.length : ℚ) ≠ 0 :=
    Nat.cast_ne_zero.mpr fun h => hv (List.length_eq_zero.mp h)
  have h4 : ((v.map batchSize).sum : ℚ) ≠ 0 := Nat.cast_ne_zero.mpr hvs
  have hm : epochMetrics t v = .ok
      ⟨((t.map batchCorrect).sum : ℚ) / ((t.map batchSize).sum : ℚ),
       ((v.map batchCorrect).sum : ℚ) / ((v.map batchSize).sum : ℚ),
       (t.map EpochBatch.loss).sum / (t.length : ℚ),
       (v.map EpochBatch.loss).sum / (v.length : ℚ)⟩ := by
    unfold epochMetrics safeDiv
    rw [if_neg h1, if_neg h2, if_neg h3, if_neg h4]
  refine ⟨epochStep patience initState ((v.map EpochBatch.loss).sum / (v.length : ℚ)),
    ?_, ?_, ?_, ?_⟩
  · simp only [train_model, runEpochData, hm]
    simp [initState]
  · simp [epochStep, improves, initState]
  · simp [epochStep, improves, initState]
  · exact ⟨(v.map EpochBatch.loss).sum / (v.length : ℚ),
      by simp [epochStep, improves, initState]⟩

/-- Witness for `single_epoch_run`: a two-sample train batch and a
one-sample validation batch. -/
theorem single_epoch_run_witness :
    (([⟨[1, 0], [1, 0], 1⟩] : List EpochBatch) ≠ [] ∧
     ([⟨[1], [1], 1⟩] : List EpochBatch) ≠ [] ∧
     (([⟨[1, 0], [1, 0], 1⟩] : List EpochBatch).map batchSize).sum ≠ 0 ∧
     (([⟨[1], [1], 1⟩] : List EpochBatch).map batchSize).sum ≠ 0) ∧
    (∃ s : TrainState,
      train_model 3 initState [([⟨[1, 0], [1, 0], 1⟩], [⟨[1], [1], 1⟩])] = .ok s ∧
      s.logLines = 1 ∧ s.bestCkpt = some 0 ∧ ∃ m : ℚ, s.bestLoss = some m) :=
  ⟨⟨by simp, by simp, by simp [batchSize], by simp [batchSize]⟩,
    single_epoch_run 3 [⟨[1, 0], [1, 0], 1⟩] [⟨[1], [1], 1⟩]
      (by simp) (by simp) (by simp [batchSize]) (by simp [batchSize])⟩

/-- Invariant tying a reachable loop state to the list `seen` of average
validation losses of the epochs completed so far: the epoch and log
counters equal the number of completed epochs; before any epoch the state
is pristine; after at least one epoch the best checkpoint points at an
epoch whose loss is the minimum seen, with the no-improvement counter
measuring the epochs since; and (for positive patience) the counter stays
within patience, strictly so while the early-stop flag is down. -/
def GoodState (patience : ℕ) (seen : List ℚ) (s : TrainState) : Prop :=
  s.epochsRun = seen.length ∧
  s.logLines = seen.length ∧
  (s.bestCkpt = none →
    seen = [] ∧ s.bestLoss = none ∧ s.epochsNoImprove = 0 ∧ s.earlyStop = false) ∧
  (∀ e : ℕ, s.bestCkpt = some e →
    ∃ h : e < seen.length,
      s.bestLoss = some (seen.get ⟨e, h⟩) ∧
      (∀ l ∈ seen, seen.get ⟨e, h⟩ ≤ l) ∧
      e + 1 + s.epochsNoImprove = seen.length) ∧
  (1 ≤ patience → s.earlyStop = false → s.epochsNoImprove < patience) ∧
  (1 ≤ patience → s.epochsNoImprove ≤ patience)

lemma goodState_init (patience : ℕ) : GoodState patience [] initState := by
  refine ⟨rfl, rfl, fun _ => ⟨rfl, rfl, rfl, rfl⟩, ?_, ?_, ?_⟩
  · intro e he
    simp [initState] at he
  · intro hp _
    exact hp
  · intro _
    exact Nat.zero_le _

lemma get_append_last (xs : List ℚ) (x : ℚ) (i : ℕ) (hi : i = xs.length)
    (h : i < (xs ++ [x]).length) : (xs ++ [x]).get ⟨i, h⟩ = x := by
  rw [List.get_eq_getElem]
  exact List.getElem_concat_length xs x i hi h

lemma get_append_left (xs : List ℚ) (x : ℚ) (i : ℕ) (h : i < xs.length)
    (h2 : i < (xs ++ [x]).length) : (xs ++ [x]).get ⟨i, h2⟩ = xs.get ⟨i, h⟩ := by
  rw [List.get_eq_getElem, List.get_eq_getElem]
  exact List.getElem_append_left h

lemma get_take_eq (xs : List ℚ) (k i : ℕ) (h : i < (xs.take k).length)
    (h2 : i < xs.length) : (xs.take k).get ⟨i, h⟩ = xs.get ⟨i, h2⟩ := by
  rw [List.get_eq_getElem, List.get_eq_getElem]
  exact List.getElem_take xs

lemma goodState_step (patience : ℕ) (seen : List ℚ) (s : TrainState) (l : ℚ)
    (hg : GoodState patience seen s) (hstop : s.earlyStop = false) :
    GoodState patience (seen ++ [l]) (epochStep patience s l) := by
  obtain ⟨hrun, hlog, hnone, hsome, hlt, hle⟩ := hg
  by_cases himp : improves l s.bestLoss = true
  · -- the epoch strictly improved on the best loss so far
    have hstep : epochStep patience s l =
        { s with epochsRun := s.epochsRun + 1, logLines := s.logLines + 1,
                 bestLoss := some l, bestCkpt := some s.epochsRun,
                 epochsNoImprove := 0 } := by
      unfold epochStep
      rw [if_pos himp]
    have hmin : ∀ x ∈ seen, l ≤ x := by
      intro x hx
      cases hb : s.bestLoss with
      | none =>
        cases hc : s.bestCkpt with
        | none =>
          obtain ⟨hseen, _, _, _⟩ := hnone hc
          subst hseen
          simp at hx
        | some e =>
          obtain ⟨h, hbest, _, _⟩ := hsome e hc
          rw [hb] at hbest
          cases hbest
      | some b =>
        have hlb : l < b := by
          rw [hb] at himp
          exact of_decide_eq_true himp
        cases hc : s.bestCkpt with
        | none =>
          obtain ⟨_, hbl, _, _⟩ := hnone hc
          rw [hb] at hbl
          cases hbl
        | some e =>
          obtain ⟨h, hbest, hm, _⟩ := hsome e hc
          rw [hb] at hbest
          have hbe : seen.get ⟨e, h⟩ = b := by
            injection hbest with hbe
            exact hbe.symm
          have := hm x hx
          rw [hbe] at this
          exact le_of_lt (lt_of_lt_of_le hlb this)
    rw [hstep]
    refine ⟨by simp [hrun], by simp [hlog], ?_, ?_, ?_, ?_⟩
    · intro hc
      exact absurd hc (Option.some_ne_none _)
    · intro e he
      have he' : s.epochsRun = e := by
        injection he
      subst he'
      have hbound : s.epochsRun < (seen ++ [l]).length := by
        simp [hrun]
      refine ⟨hbound, ?_, ?_, ?_⟩
      · rw [get_append_last seen l s.epochsRun hrun hbound]
      · intro x hx
        rw [get_append_last seen l s.epochsRun hrun hbound]
        rcases List.mem_append.mp hx with hx | hx
        · exact hmin x hx
        · simp at hx
          exact le_of_eq hx.symm
      · simp [hrun]
    · intro hp _
      exact hp
    · intro _
      exact Nat.zero_le _
  · -- no improvement: counter increments, flag may be raised
    have himp' : improves l s.bestLoss = false := by
      simpa using himp
    have hstep : epochStep patience s l =
        { s with epochsRun := s.epochsRun + 1, logLines := s.logLines + 1,
                 epochsNoImprove := s.epochsNoImprove + 1,
                 earlyStop := s.earlyStop ||
                   decide (patience ≤ s.epochsNoImprove + 1) } := by
      unfold epochStep
      rw [if_neg (by simp [himp'])]
    have hb : ∃ b, s.bestLoss = some b := by
      cases hbl : s.bestLoss with
      | none =>
        rw [hbl] at himp'
        cases himp'
      | some b => exact ⟨b, rfl⟩
    obtain ⟨b, hbl⟩ := hb
    have hble : b ≤ l := by
      rw [hbl] at himp'
      exact le_of_not_lt (of_decide_eq_false himp')
    have hck : ∃ e, s.bestCkpt = some e := by
      cases hc : s.bestCkpt with
      | none =>
        obtain ⟨_, hbn, _, _⟩ := hnone hc
        rw [hbl] at hbn
        cases hbn
      | some e => exact ⟨e, rfl⟩
    rw [hstep]
    refine ⟨by simp [hrun], by simp [hlog], ?_, ?_, ?_, ?_⟩
    · intro hc
      obtain ⟨e₀, hck⟩ := hck
      have hc' : s.bestCkpt = none := hc
      rw [hck] at hc'
      exact absurd hc' (Option.some_ne_none _)
    · intro e he
      obtain ⟨h, hbest, hm, hsum⟩ := hsome e he
      have h2 : e < (seen ++ [l]).length := by
        simp
        omega
      refine ⟨h2, ?_, ?_, ?_⟩
      · rw [get_append_left seen l e h h2]
        exact hbest
      · intro x hx
        rw [get_append_left seen l e h h2]
        rcases List.mem_append.mp hx with hx | hx
        · exact hm x hx
        · simp at hx
          subst hx
          have hbe : seen.get ⟨e, h⟩ = b := by
            rw [hbl] at hbest
            injection hbest with hbe
            exact hbe.symm
          rw [hbe]
          exact hble
      · simp
        omega
    · intro hp hstop'
      have hstop'' : (s.earlyStop || decide (patience ≤ s.epochsNoImprove + 1)) = false :=
        hstop'
      rw [hstop, Bool.false_or] at hstop''
      have := of_decide_eq_false hstop''
      show s.epochsNoImprove + 1 < patience
      omega
    · intro hp
      have := hlt hp hstop
      show s.epochsNoImprove + 1 ≤ patience
      omega

lemma runEpochs_goodState (patience : ℕ) :
    ∀ (rest seen : List ℚ) (s : TrainState), GoodState patience seen s →
      ∃ k, k ≤ rest.length ∧
        GoodState patience (seen ++ rest.take k) (runEpochs patience s rest) := by
  intro rest
  induction rest with
  | nil =>
    intro seen s hg
    exact ⟨0, Nat.le_refl 0, by simpa using hg⟩
  | cons l ls ih =>
    intro seen s hg
    by_cases hstop : s.earlyStop = true
    · refine ⟨0, Nat.zero_le _, ?_⟩
      rw [runEpochs, if_pos hstop]
      simpa using hg
    · have hstop' : s.earlyStop = false := by
        simpa using hstop
      obtain ⟨k, hk, hg'⟩ :=
        ih (seen ++ [l]) (epochStep patience s l) (goodState_step _ _ _ _ hg hstop')
      refine ⟨k + 1, Nat.succ_le_succ hk, ?_⟩
      rw [runEpochs, if_neg (by simp [hstop'])]
      simpa [List.append_assoc] using hg'

/-- Claim C2 (amended to patience ≥ 1): whenever the best checkpoint on
disk was written at epoch index `e`, the loop has run at most `patience`
epochs beyond the 1-based epoch `e + 1` — so it halts within `patience`
epochs of the last validation-loss improvement — and the best checkpoint's
epoch has the minimum average validation loss among all epochs run so
far.  (For `patience = 0` the halting bound fails by one epoch; see
`early_stop_patience_zero_cex`.) -/
theorem early_stop_within_patience (patience : ℕ) (losses : List ℚ) (e : ℕ)
    (hp : 1 ≤ patience)
    (he : (runEpochs patience initState losses).bestCkpt = some e) :
    (runEpochs patience initState losses).epochsRun ≤ e + 1 + patience ∧
    ∃ h : e < losses.length,
      (runEpochs patience initState losses).bestLoss = some (losses.get ⟨e, h⟩) ∧
      ∀ l ∈ losses.take (runEpochs patience initState losses).epochsRun,
        losses.get ⟨e, h⟩ ≤ l := by
  obtain ⟨k, hk, hg⟩ :=
    runEpochs_goodState patience losses [] initState (goodState_init patience)
  rw [List.nil_append] at hg
  obtain ⟨hrun, hlog, hnone, hsome, hlt, hle⟩ := hg
  obtain ⟨h, hbest, hmin, hsum⟩ := hsome e he
  have hlen : (losses.take k).length = k := by
    rw [List.length_take]
    omega
  have hel : e < losses.length := by
    rw [List.length_take] at h
    omega
  have htk : losses.take (runEpochs patience initState losses).epochsRun =
      losses.take k := by
    rw [hrun, hlen]
  have hget : (losses.take k).get ⟨e, h⟩ = losses.get ⟨e, hel⟩ :=
    get_take_eq losses k e h hel
  refine ⟨?_, hel, ?_, ?_⟩
  · have hrk : (runEpochs patience initState losses).epochsRun = k := by
      rw [hrun, hlen]
    have hsk : e + 1 + (runEpochs patience initState losses).epochsNoImprove = k := by
      rw [hsum, hlen]
    have hcp := hle hp
    omega
  · rw [hbest, hget]
  · intro l hl
    rw [htk] at hl
    rw [← hget]
    exact hmin l hl

/-- Witness for `early_stop_within_patience`: a one-epoch run with
patience 1 writes its best checkpoint at epoch 0 and halts in bound. -/
theorem early_stop_within_patience_witness :
    (1 ≤ 1 ∧ (runEpochs 1 initState [1]).bestCkpt = some 0) ∧
    ((runEpochs 1 initState [1]).epochsRun ≤ 0 + 1 + 1 ∧
     ∃ h : 0 < ([1] : List ℚ).length,
       (runEpochs 1 initState [1]).bestLoss = some (([1] : List ℚ).get ⟨0, h⟩) ∧
       ∀ l ∈ ([1] : List ℚ).take (runEpochs 1 initState [1]).epochsRun,
         ([1] : List ℚ).get ⟨0, h⟩ ≤ l) :=
  ⟨⟨Nat.le_refl 1, rfl⟩, early_stop_within_patience 1 [1] 0 (Nat.le_refl 1) rfl⟩

/-- Counterexample to claim C2 as stated (quantified over every patience
value): with patience 0 and validation losses 1 then 2, the last (and
only) improvement is at epoch 0, yet a second epoch still runs before the
early-stop flag — checked only at the top of the next iteration — takes
effect, exceeding the claimed bound of 0 further epochs. -/
theorem early_stop_patience_zero_cex :
    (runEpochs 0 initState [1, 2]).bestCkpt = some 0 ∧
    (runEpochs 0 initState [1, 2]).epochsRun = 2 ∧
    ¬(runEpochs 0 initState [1, 2]).epochsRun ≤ 0 + 1 + 0 := by
  refine ⟨?_, ?_, ?_⟩ <;> decide

/-- A sample as the data provider holds it: (epitope key, HLA key, binary
label), indexed as in `train.py` line 146 (`samples[i][2]`) and `test.py`
line 39 (`sample[-1]`). -/
structure DataProvider where
  samples : List (ℕ × ℕ × ℚ)

/-- Modelled from the spec: `DataProvider.__len__` lives in the external
`dataprovider` module, not in these sources; the spec's data model says the
provider "produces an indexable collection of (epitope-embedding-key,
HLA-embedding-key, label) samples", so its sample count is the length of
that collection. -/
def DataProvider.numSamples (dp : DataProvider) : ℕ :=
  dp.samples.length

/-- The label vector `y = np.array([sample[-1] for sample in
data_provider.samples])` of `test.py` lines 39 and 50. -/
def labelVector (dp : DataProvider) : List ℚ :=
  dp.samples.map fun sample => sample.2.2

/-- The batch slicing performed by `DataLoader(dataset, batch_size=b,
shuffle=False)` in `test.py` line 38: consecutive chunks of size `b`, the
last possibly shorter. -/
def toBatches (b : ℕ) : List α → List (List α)
  | [] => []
  | x :: xs =>
    if h : b = 0 then [] else
      have : xs.length + 1 - b < xs.length + 1 := by omega
      (x :: xs).take b :: toBatches b ((x :: xs).drop b)
termination_by l => l.length
decreasing_by simpa using this

/-- `test_model` (`test.py` lines 23-32): run the model over each batch in
original order, collect the per-batch prediction vectors, and concatenate
them.  The model is an opaque elementwise collaborator. -/
def test_model (model : α → ℚ) (b : ℕ) (dataset : List α) : List ℚ :=
  ((toBatches b dataset).map fun batch => batch.map model).flatten

lemma toBatches_flatten (b : ℕ) (hb : 1 ≤ b) :
    ∀ xs : List α, (toBatches b xs).flatten = xs
  | [] => by
    simp [toBatches]
  | x :: xs => by
    unfold toBatches
    rw [dif_neg (by omega : ¬b = 0)]
    have : xs.length + 1 - b < xs.length + 1 := by omega
    rw [List.flatten_cons, toBatches_flatten b hb ((x :: xs).drop b),
      List.take_append_drop]
termination_by xs => xs.length
decreasing_by simpa using this

/-- Claim C5: the ground-truth label vector used by `calculate_roc_auc` and
`calculate_pr_auc` has exactly as many entries as the data provider has
samples, and — when the encoder preserves the provider's sample count and
the batch size is positive — as many entries as the concatenated
prediction vector `test_model` produces by in-order inference. -/
theorem eval_label_pred_lengths (dp : DataProvider) (dataset : List α)
    (model : α → ℚ) (b : ℕ) (hb : 1 ≤ b)
    (henc : dataset.length = dp.numSamples) :
    (labelVector dp).length = dp.numSamples ∧
    (test_model model b dataset).length = (labelVector dp).length := by
  have h1 : (labelVector dp).length = dp.numSamples := by
    simp [labelVector, DataProvider.numSamples]
  refine ⟨h1, ?_⟩
  have h2 : (test_model model b dataset) = dataset.map model := by
    unfold test_model
    rw [← List.map_flatten, toBatches_flatten b hb dataset]
  rw [h2, List.length_map, henc, h1]

/-- Witness for `eval_label_pred_lengths` on a two-sample provider with a
two-element encoded dataset and batch size 1. -/
theorem eval_label_pred_lengths_witness :
    (1 ≤ 1 ∧ ([10, 20] : List ℕ).length = (DataProvider.mk [(0, 0, 1), (1, 1, 0)]).numSamples) ∧
    ((labelVector (DataProvider.mk [(0, 0, 1), (1, 1, 0)])).length =
        (DataProvider.mk [(0, 0, 1), (1, 1, 0)]).numSamples ∧
      (test_model (fun x : ℕ => (x : ℚ)) 1 [10, 20]).length =
        (labelVector (DataProvider.mk [(0, 0, 1), (1, 1, 0)])).length) :=
  ⟨⟨Nat.le_refl 1, rfl⟩,
    eval_label_pred_lengths (DataProvider.mk [(0, 0, 1), (1, 1, 0)]) [10, 20]
      (fun x : ℕ => (x : ℚ)) 1 (Nat.le_refl 1) rfl⟩

/-- A scored evaluation sample: the model's prediction score paired with
the binary ground-truth label, as matched up positionally by
`roc_curve(y, y_pred)` in `test.py` lines 41 and 52. -/
abbrev ScoredSample := ℚ × Bool

/-- Total positives `tps[-1]` of the threshold sweep. -/
def posCount (data : List ScoredSample) : ℕ :=
  data.countP fun p => p.2

/-- Total negatives `fps[-1]` of the threshold sweep. -/
def negCount (data : List ScoredSample) : ℕ :=
  data.countP fun p => !p.2

/-- True positives at threshold `t`: positives scoring at least `t`
(the cumulative sum at a distinct-score index in the curve routine). -/
def tpsAt (data : List ScoredSample) (t : ℚ) : ℕ :=
  data.countP fun p => p.2 && decide (t ≤ p.1)

/-- False positives at threshold `t`: negatives scoring at least `t`. -/
def fpsAt (data : List ScoredSample) (t : ℚ) : ℕ :=
  data.countP fun p => !p.2 && decide (t ≤ p.1)

/-- The distinct prediction scores in decreasing order: the thresholds at
which the curve routine records cumulative counts (scores sorted
descending, keeping the last index of each run of equal scores). -/
def thresholdsDesc (data : List ScoredSample) : List ℚ :=
  List.insertionSort (· ≥ ·) (data.map Prod.fst).dedup

/-- `fpr = fps / fps[-1]` with the leading 0 prepended by `roc_curve`. -/
def fprList (data : List ScoredSample) : List ℚ :=
  0 :: (thresholdsDesc data).map fun t => (fpsAt data t : ℚ) / (negCount data : ℚ)

/-- `tpr = tps / tps[-1]` with the leading 0 prepended by `roc_curve`. -/
def tprList (data : List ScoredSample) : List ℚ :=
  0 :: (thresholdsDesc data).map fun t => (tpsAt data t : ℚ) / (posCount data : ℚ)

/-- `np.trapz(y, x)`: the trapezoidal rule along consecutive points. -/
def trapz : List ℚ → List ℚ → ℚ
  | x1 :: x2 :: xs, y1 :: y2 :: ys =>
    (x2 - x1) * (y1 + y2) / 2 + trapz (x2 :: xs) (y2 :: ys)
  | _, _ => 0

/-- All consecutive differences of the x-coordinates are nonnegative. -/
def diffsNonneg : List ℚ → Bool
  | x1 :: x2 :: xs => decide (x1 ≤ x2) && diffsNonneg (x2 :: xs)
  | _ => true

/-- All consecutive differences of the x-coordinates are nonpositive. -/
def diffsNonpos : List ℚ → Bool
  | x1 :: x2 :: xs => decide (x2 ≤ x1) && diffsNonpos (x2 :: xs)
  | _ => true

/-- `sklearn.metrics.auc(x, y)`: fails on fewer than two points, computes
the trapezoidal area when `x` is nondecreasing, its negation when `x` is
nonincreasing (direction = -1), and fails when `x` is not monotonic. -/
def auc (xs ys : List ℚ) : Option ℚ :=
  if xs.length < 2 then none
  else if diffsNonneg xs then some (trapz xs ys)
  else if diffsNonpos xs then some (-trapz xs ys)
  else none

/-- The ROC-AUC computed by `calculate_roc_auc` (`test.py` lines 41-42):
`fpr, tpr, _ = roc_curve(y, y_pred); roc_auc = auc(fpr, tpr)`. -/
def calculate_roc_auc (data : List ScoredSample) : Option ℚ :=
  auc (fprList data) (tprList data)

/-- Precision at threshold `t`: `tps / (tps + fps)`, 0 when nothing is
predicted positive (the curve routine's guarded divide). -/
def precisionAt (data : List ScoredSample) (t : ℚ) : ℚ :=
  (tpsAt data t : ℚ) / ((tpsAt data t : ℚ) + (fpsAt data t : ℚ))

/-- Recall at threshold `t`: `tps / tps[-1]`. -/
def recallAt (data : List ScoredSample) (t : ℚ) : ℚ :=
  (tpsAt data t : ℚ) / (posCount data : ℚ)

/-- The thresholds in the order `precision_recall_curve` returns its
points: increasing (the descending sweep reversed). -/
def thresholdsAsc (data : List ScoredSample) : List ℚ :=
  (thresholdsDesc data).reverse

/-- The precision coordinates returned by `precision_recall_curve`, with
the final precision 1 appended. -/
def precisionList (data : List ScoredSample) : List ℚ :=
  ((thresholdsAsc data).map (precisionAt data)) ++ [1]

/-- The recall coordinates returned by `precision_recall_curve`, with the
final recall 0 appended. -/
def recallList (data : List ScoredSample) : List ℚ :=
  ((thresholdsAsc data).map (recallAt data)) ++ [0]

/-- The PR-AUC computed by `calculate_pr_auc` (`test.py` lines 52-53):
`precision, recall, _ = precision_recall_curve(y, y_pred);
pr_auc = auc(recall, precision)`. -/
def calculate_pr_auc (data : List ScoredSample) : Option ℚ :=
  auc (recallList data) (precisionList data)

lemma diffsNonneg_iff : ∀ xs : List ℚ, diffsNonneg xs = true ↔ List.Chain' (· ≤ ·) xs
  | [] => by simp [diffsNonneg]
  | [x] => by simp [diffsNonneg]
  | x1 :: x2 :: xs => by
    simp [diffsNonneg, List.chain'_cons, diffsNonneg_iff (x2 :: xs)]

lemma diffsNonpos_iff : ∀ xs : List ℚ, diffsNonpos xs = true ↔ List.Chain' (· ≥ ·) xs
  | [] => by simp [diffsNonpos]
  | [x] => by simp [diffsNonpos]
  | x1 :: x2 :: xs => by
    simp [diffsNonpos, List.chain'_cons, diffsNonpos_iff (x2 :: xs)]

lemma head_le_getLast : ∀ xs : List ℚ, List.Chain' (· ≤ ·) xs →
    xs.head?.getD 0 ≤ xs.getLast?.getD 0
  | [] => by simp
  | [x] => by simp
  | x1 :: x2 :: xs => by
    intro h
    rw [List.chain'_cons] at h
    have ih := head_le_getLast (x2 :: xs) h.2
    rw [List.getLast?_cons_cons]
    simp only [List.head?_cons, Option.getD_some] at ih ⊢
    exact le_trans h.1 ih

lemma getLast_le_head : ∀ xs : List ℚ, List.Chain' (· ≥ ·) xs →
    xs.getLast?.getD 0 ≤ xs.head?.getD 0
  | [] => by simp
  | [x] => by simp
  | x1 :: x2 :: xs => by
    intro h
    rw [List.chain'_cons] at h
    have ih := getLast_le_head (x2 :: xs) h.2
    rw [List.getLast?_cons_cons]
    simp only [List.head?_cons, Option.getD_some] at ih ⊢
    exact le_trans ih h.1

lemma trapz_bounds_asc : ∀ xs ys : List ℚ, List.Chain' (· ≤ ·) xs →
    (∀ y ∈ ys, 0 ≤ y ∧ y ≤ 1) →
    0 ≤ trapz xs ys ∧ trapz xs ys ≤ xs.getLast?.getD 0 - xs.head?.getD 0
  | [], ys => by
    intro _ _
    simp [trapz]
  | [x], ys => by
    intro _ _
    simp [trapz]
  | x1 :: x2 :: xs, [] => by
    intro hx _
    have := head_le_getLast (x1 :: x2 :: xs) hx
    constructor
    · simp [trapz]
    · simp only [trapz]
      linarith
  | x1 :: x2 :: xs, [y] => by
    intro hx _
    have := head_le_getLast (x1 :: x2 :: xs) hx
    constructor
    · simp [trapz]
    · simp only [trapz]
      linarith
  | x1 :: x2 :: xs, y1 :: y2 :: ys => by
    intro hx hy
    rw [List.chain'_cons] at hx
    have hy1 := hy y1 (by simp)
    have hy2 := hy y2 (by simp)
    have ih := trapz_bounds_asc (x2 :: xs) (y2 :: ys) hx.2
      (fun y hmem => hy y (List.mem_cons_of_mem _ hmem))
    have hterm0 : 0 ≤ (x2 - x1) * (y1 + y2) / 2 := by
      have h1 : 0 ≤ x2 - x1 := by linarith [hx.1]
      have h2 : 0 ≤ y1 + y2 := by linarith [hy1.1, hy2.1]
      positivity
    have hterm1 : (x2 - x1) * (y1 + y2) / 2 ≤ x2 - x1 := by
      have h1 : 0 ≤ x2 - x1 := by linarith [hx.1]
      have h2 : y1 + y2 ≤ 2 := by linarith [hy1.2, hy2.2]
      nlinarith
    rw [List.getLast?_cons_cons]
    simp only [List.head?_cons, Option.getD_some] at ih ⊢
    constructor
    · simp only [trapz]
      linarith [ih.1]
    · simp only [trapz]
      linarith [ih.2]

lemma trapz_bounds_desc : ∀ xs ys : List ℚ, List.Chain' (· ≥ ·) xs →
    (∀ y ∈ ys, 0 ≤ y ∧ y ≤ 1) →
    trapz xs ys ≤ 0 ∧ xs.getLast?.getD 0 - xs.head?.getD 0 ≤ trapz xs ys
  | [], ys => by
    intro _ _
    simp [trapz]
  | [x], ys => by
    intro _ _
    simp [trapz]
  | x1 :: x2 :: xs, [] => by
    intro hx _
    have := getLast_le_head (x1 :: x2 :: xs) hx
    constructor
    · simp [trapz]
    · simp only [trapz]
      linarith
  | x1 :: x2 :: xs, [y] => by
    intro hx _
    have := getLast_le_head (x1 :: x2 :: xs) hx
    constructor
    · simp [trapz]
    · simp only [trapz]
      linarith
  | x1 :: x2 :: xs, y1 :: y2 :: ys => by
    intro hx hy
    rw [List.chain'_cons] at hx
    have hy1 := hy y1 (by simp)
    have hy2 := hy y2 (by simp)
    have ih := trapz_bounds_desc (x2 :: xs) (y2 :: ys) hx.2
      (fun y hmem => hy y (List.mem_cons_of_mem _ hmem))
    have hterm0 : (x2 - x1) * (y1 + y2) / 2 ≤ 0 := by
      have h1 : x2 - x1 ≤ 0 := by linarith [hx.1]
      have h2 : 0 ≤ y1 + y2 := by linarith [hy1.1, hy2.1]
      nlinarith
    have hterm1 : x2 - x1 ≤ (x2 - x1) * (y1 + y2) / 2 := by
      have h1 : x2 - x1 ≤ 0 := by linarith [hx.1]
      have h2 : y1 + y2 ≤ 2 := by linarith [hy1.2, hy2.2]
      nlinarith
    rw [List.getLast?_cons_cons]
    simp only [List.head?_cons, Option.getD_some] at ih ⊢
    constructor
    · simp only [trapz]
      linarith [ih.1]
    · simp only [trapz]
      linarith [ih.2]

lemma tpsAt_le_posCount (data : List ScoredSample) (t : ℚ) :
    tpsAt data t ≤ posCount data :=
  List.countP_mono_left fun x _ hx => by
    rw [Bool.and_eq_true] at hx
    exact hx.1

lemma fpsAt_le_negCount (data : List ScoredSample) (t : ℚ) :
    fpsAt data t ≤ negCount data :=
  List.countP_mono_left fun x _ hx => by
    rw [Bool.and_eq_true] at hx
    exact hx.1

lemma tpsAt_antitone (data : List ScoredSample) {t t' : ℚ} (h : t' ≤ t) :
    tpsAt data t ≤ tpsAt data t' :=
  List.countP_mono_left fun x _ hx => by
    rw [Bool.and_eq_true] at hx ⊢
    exact ⟨hx.1, decide_eq_true (le_trans h (of_decide_eq_true hx.2))⟩

lemma fpsAt_antitone (data : List ScoredSample) {t t' : ℚ} (h : t' ≤ t) :
    fpsAt data t ≤ fpsAt data t' :=
  List.countP_mono_left fun x _ hx => by
    rw [Bool.and_eq_true] at hx ⊢
    exact ⟨hx.1, decide_eq_true (le_trans h (of_decide_eq_true hx.2))⟩

lemma recallAt_bounds (data : List ScoredSample) (t : ℚ) (hpos : 0 < posCount data) :
    0 ≤ recallAt data t ∧ recallAt data t ≤ 1 := by
  have h0 : (0 : ℚ) < (posCount data : ℚ) := by exact_mod_cast hpos
  refine ⟨div_nonneg (Nat.cast_nonneg _) (le_of_lt h0), ?_⟩
  rw [recallAt, div_le_one h0]
  exact_mod_cast tpsAt_le_posCount data t

lemma precisionAt_bounds (data : List ScoredSample) (t : ℚ) :
    0 ≤ precisionAt data t ∧ precisionAt data t ≤ 1 := by
  unfold precisionAt
  rcases eq_or_lt_of_le
      (by positivity : (0 : ℚ) ≤ (tpsAt data t : ℚ) + (fpsAt data t : ℚ)) with h | h
  · rw [← h, div_zero]
    norm_num
  · refine ⟨by positivity, ?_⟩
    rw [div_le_one h]
    have : (0 : ℚ) ≤ (fpsAt data t : ℚ) := Nat.cast_nonneg _
    linarith

lemma thresholdsDesc_chain (data : List ScoredSample) :
    List.Chain' (· ≥ ·) (thresholdsDesc data) :=
  (List.sorted_insertionSort _ _).chain'

lemma thresholdsDesc_ne_nil (data : List ScoredSample) (hne : data ≠ []) :
    thresholdsDesc data ≠ [] := by
  have hlen : (thresholdsDesc data).length = ((data.map Prod.fst).dedup).length :=
    (List.perm_insertionSort _ _).length_eq
  intro hnil
  rw [hnil] at hlen
  obtain ⟨p, ps, rfl⟩ := List.exists_cons_of_ne_nil hne
  have hmem : p.1 ∈ ((p :: ps : List ScoredSample).map Prod.fst).dedup :=
    List.mem_dedup.mpr (by simp)
  have hne2 := List.ne_nil_of_mem hmem
  simp only [List.length_nil] at hlen
  exact hne2 (List.length_eq_zero.mp hlen.symm)

lemma getLast_getD_mem (l : List ℚ) (hne : l ≠ []) : l.getLast?.getD 0 ∈ l := by
  rw [List.getLast?_eq_getLast_of_ne_nil hne]
  simp only [Option.getD_some]
  exact List.getLast_mem hne

lemma fprList_mem_bounds (data : List ScoredSample) (hneg : 0 < negCount data) :
    ∀ v ∈ fprList data, 0 ≤ v ∧ v ≤ 1 := by
  intro v hv
  rcases List.mem_cons.mp hv with rfl | hv
  · norm_num
  · obtain ⟨t, _, rfl⟩ := List.mem_map.mp hv
    have hN : (0 : ℚ) < (negCount data : ℚ) := by exact_mod_cast hneg
    exact ⟨div_nonneg (Nat.cast_nonneg _) (le_of_lt hN),
      (div_le_one hN).mpr (by exact_mod_cast fpsAt_le_negCount data t)⟩

lemma tprList_mem_bounds (data : List ScoredSample) (hpos : 0 < posCount data) :
    ∀ v ∈ tprList data, 0 ≤ v ∧ v ≤ 1 := by
  intro v hv
  rcases List.mem_cons.mp hv with rfl | hv
  · norm_num
  · obtain ⟨t, _, rfl⟩ := List.mem_map.mp hv
    exact recallAt_bounds data t hpos

lemma fprList_chain (data : List ScoredSample) (hneg : 0 < negCount data) :
    List.Chain' (· ≤ ·) (fprList data) := by
  have hN : (0 : ℚ) < (negCount data : ℚ) := by exact_mod_cast hneg
  unfold fprList
  rw [List.chain'_cons']
  constructor
  · intro y hy
    have hm : y ∈ (thresholdsDesc data).map
        fun t => (fpsAt data t : ℚ) / (negCount data : ℚ) :=
      List.mem_of_mem_head? hy
    obtain ⟨t, _, rfl⟩ := List.mem_map.mp hm
    exact div_nonneg (Nat.cast_nonneg _) (le_of_lt hN)
  · rw [List.chain'_map]
    refine (thresholdsDesc_chain data).imp fun a b hab => ?_
    have hcount := fpsAt_antitone data hab
    gcongr


lemma tprList_chain (data : List ScoredSample) (hpos : 0 < posCount data) :
    List.Chain' (· ≤ ·) (tprList data) := by
  have hP : (0 : ℚ) < (posCount data : ℚ) := by exact_mod_cast hpos
  unfold tprList
  rw [List.chain'_cons']
  constructor
  · intro y hy
    have hm : y ∈ (thresholdsDesc data).map
        fun t => (tpsAt data t : ℚ) / (posCount data : ℚ) :=
      List.mem_of_mem_head? hy
    obtain ⟨t, _, rfl⟩ := List.mem_map.mp hm
    exact div_nonneg (Nat.cast_nonneg _) (le_of_lt hP)
  · rw [List.chain'_map]
    refine (thresholdsDesc_chain data).imp fun a b hab => ?_
    have hcount := tpsAt_antitone data hab
    gcongr

lemma roc_auc_in_range (data : List ScoredSample)
    (hpos : 0 < posCount data) (hneg : 0 < negCount data) :
    ∃ v, calculate_roc_auc data = some v ∧ 0 ≤ v ∧ v ≤ 1 := by
  have hdne : data ≠ [] := by
    obtain ⟨p, hp, _⟩ := List.countP_pos_iff.mp hpos
    exact List.ne_nil_of_mem hp
  have htne := thresholdsDesc_ne_nil data hdne
  have hchain := fprList_chain data hneg
  have hybounds : ∀ y ∈ tprList data, 0 ≤ y ∧ y ≤ 1 := tprList_mem_bounds data hpos
  have hlen : ¬(fprList data).length < 2 := by
    unfold fprList
    have := List.length_pos.mpr htne
    simp only [List.length_cons, List.length_map]
    omega
  have hdn : diffsNonneg (fprList data) = true := (diffsNonneg_iff _).mpr hchain
  have hb := trapz_bounds_asc (fprList data) (tprList data) hchain hybounds
  refine ⟨trapz (fprList data) (tprList data), ?_, hb.1, ?_⟩
  · unfold calculate_roc_auc auc
    rw [if_neg hlen, if_pos hdn]
  · have hhead : (fprList data).head?.getD 0 = 0 := rfl
    have hne2 : fprList data ≠ [] := by
      unfold fprList
      exact List.cons_ne_nil _ _
    have hlast := (fprList_mem_bounds data hneg _ (getLast_getD_mem _ hne2)).2
    rw [hhead] at hb
    linarith [hb.2]

lemma recallList_chain (data : List ScoredSample) (hpos : 0 < posCount data) :
    List.Chain' (· ≥ ·) (recallList data) := by
  have hP : (0 : ℚ) < (posCount data : ℚ) := by exact_mod_cast hpos
  unfold recallList
  rw [List.chain'_append]
  refine ⟨?_, List.chain'_singleton _, ?_⟩
  · rw [List.chain'_map]
    have hasc : List.Chain' (· ≤ ·) (thresholdsAsc data) := by
      unfold thresholdsAsc
      rw [List.chain'_reverse]
      exact thresholdsDesc_chain data
    refine hasc.imp fun a b hab => ?_
    have hcount := tpsAt_antitone data hab
    show recallAt data b ≤ recallAt data a
    unfold recallAt
    gcongr
  · intro x hx y hy
    simp only [List.head?_cons, Option.mem_def, Option.some.injEq] at hy
    subst hy
    obtain ⟨hne', heq⟩ := List.mem_getLast?_eq_getLast hx
    have hxm : x ∈ (thresholdsAsc data).map (recallAt data) := by
      rw [heq]
      exact List.getLast_mem hne'
    obtain ⟨t, _, rfl⟩ := List.mem_map.mp hxm
    exact div_nonneg (Nat.cast_nonneg _) (le_of_lt hP)

lemma pr_auc_in_range (data : List ScoredSample)
    (hpos : 0 < posCount data) :
    ∃ v, calculate_pr_auc data = some v ∧ 0 ≤ v ∧ v ≤ 1 := by
  have hdne : data ≠ [] := by
    obtain ⟨p, hp, _⟩ := List.countP_pos_iff.mp hpos
    exact List.ne_nil_of_mem hp
  have htne := thresholdsDesc_ne_nil data hdne
  have hane : thresholdsAsc data ≠ [] := by
    unfold thresholdsAsc
    simpa using htne
  have hchain := recallList_chain data hpos
  have hlen : ¬(recallList data).length < 2 := by
    unfold recallList
    have := List.length_pos.mpr hane
    simp only [List.length_append, List.length_map, List.length_cons, List.length_nil]
    omega
  have hybounds : ∀ y ∈ precisionList data, 0 ≤ y ∧ y ≤ 1 := by
    intro y hy
    unfold precisionList at hy
    rcases List.mem_append.mp hy with hy | hy
    · obtain ⟨t, _, rfl⟩ := List.mem_map.mp hy
      exact precisionAt_bounds data t
    · simp only [List.mem_singleton] at hy
      subst hy
      norm_num
  have hhead : (recallList data).head?.getD 0 ≤ 1 := by
    obtain ⟨t0, ts, hts⟩ := List.exists_cons_of_ne_nil hane
    unfold recallList
    rw [hts]
    simp only [List.map_cons, List.cons_append, List.head?_cons, Option.getD_some]
    exact (recallAt_bounds data t0 hpos).2
  have hlast : (recallList data).getLast?.getD 0 = 0 := by
    unfold recallList
    rw [List.getLast?_concat]
    rfl
  have h2 := trapz_bounds_desc (recallList data) (precisionList data) hchain hybounds
  unfold calculate_pr_auc auc
  rw [if_neg hlen]
  by_cases hdn : diffsNonneg (recallList data) = true
  · rw [if_pos hdn]
    have hchain2 := (diffsNonneg_iff _).mp hdn
    have h1 := trapz_bounds_asc (recallList data) (precisionList data) hchain2 hybounds
    exact ⟨_, rfl, h1.1, by linarith [h2.1]⟩
  · rw [if_neg hdn, if_pos ((diffsNonpos_iff _).mpr hchain)]
    refine ⟨_, rfl, by linarith [h2.1], ?_⟩
    rw [hlast] at h2
    linarith [h2.2, hhead]

lemma thresholdsDesc_perfect (data : List ScoredSample)
    (hperf : ∀ p ∈ data, p.1 = if p.2 then 1 else 0)
    (hpos : 0 < posCount data) (hneg : 0 < negCount data) :
    thresholdsDesc data = [1, 0] := by
  obtain ⟨p, hp, hp2⟩ := List.countP_pos_iff.mp hpos
  obtain ⟨q, hq, hq2⟩ := List.countP_pos_iff.mp hneg
  have hp2' : p.2 = true := hp2
  have hq2' : q.2 = false := by simpa using hq2
  have h1m : (1 : ℚ) ∈ data.map Prod.fst := by
    refine List.mem_map.mpr ⟨p, hp, ?_⟩
    rw [hperf p hp, hp2', if_pos rfl]
  have h0m : (0 : ℚ) ∈ data.map Prod.fst := by
    refine List.mem_map.mpr ⟨q, hq, ?_⟩
    rw [hperf q hq, hq2']
    rfl
  have hsub : ∀ x ∈ data.map Prod.fst, x = 1 ∨ x = 0 := by
    intro x hx
    obtain ⟨r, hr, rfl⟩ := List.mem_map.mp hx
    rw [hperf r hr]
    cases r.2 <;> simp
  have hperm : ((data.map Prod.fst).dedup).Perm [1, 0] := by
    rw [List.perm_ext_iff_of_nodup (List.nodup_dedup _) (by norm_num)]
    intro a
    rw [List.mem_dedup]
    constructor
    · intro ha
      rcases hsub a ha with rfl | rfl <;> simp
    · intro ha
      simp only [List.mem_cons, List.mem_singleton, List.not_mem_nil, or_false] at ha
      rcases ha with rfl | rfl
      · exact h1m
      · exact h0m
  have hsorted2 : List.Sorted (· ≥ ·) ([1, 0] : List ℚ) := by
    simp [List.sorted_cons]
  unfold thresholdsDesc
  exact List.eq_of_perm_of_sorted ((List.perm_insertionSort _ _).trans hperm)
    (List.sorted_insertionSort _ _) hsorted2

lemma counts_perfect (data : List ScoredSample)
    (hperf : ∀ p ∈ data, p.1 = if p.2 then 1 else 0) :
    tpsAt data 1 = posCount data ∧ tpsAt data 0 = posCount data ∧
    fpsAt data 1 = 0 ∧ fpsAt data 0 = negCount data := by
  refine ⟨?_, ?_, ?_, ?_⟩
  · apply List.countP_congr
    intro x hx
    have hx1 := hperf x hx
    cases h2 : x.2 with
    | true =>
      rw [h2, if_pos rfl] at hx1
      simp [h2, hx1]
    | false =>
      simp [h2]
  · apply List.countP_congr
    intro x hx
    have hx1 := hperf x hx
    cases h2 : x.2 with
    | true =>
      rw [h2, if_pos rfl] at hx1
      simp [h2, hx1]
    | false =>
      simp [h2]
  · rw [fpsAt, List.countP_eq_zero]
    intro x hx
    have hx1 := hperf x hx
    cases h2 : x.2 with
    | true => simp [h2]
    | false =>
      rw [h2] at hx1
      simp only [if_false, Bool.false_eq_true] at hx1
      simp [h2, hx1]
  · apply List.countP_congr
    intro x hx
    have hx1 := hperf x hx
    cases h2 : x.2 with
    | true => simp [h2]
    | false =>
      rw [h2] at hx1
      simp only [if_false, Bool.false_eq_true] at hx1
      simp [h2, hx1]

lemma roc_auc_perfect (data : List ScoredSample)
    (hperf : ∀ p ∈ data, p.1 = if p.2 then 1 else 0)
    (hpos : 0 < posCount data) (hneg : 0 < negCount data) :
    calculate_roc_auc data = some 1 := by
  obtain ⟨ht1, ht0, hf1, hf0⟩ := counts_perfect data hperf
  have hthresh := thresholdsDesc_perfect data hperf hpos hneg
  have hN : ((negCount data : ℚ)) ≠ 0 := by
    exact_mod_cast Nat.pos_iff_ne_zero.mp hneg
  have hP : ((posCount data : ℚ)) ≠ 0 := by
    exact_mod_cast Nat.pos_iff_ne_zero.mp hpos
  have hfpr : fprList data = [0, 0, 1] := by
    unfold fprList
    rw [hthresh]
    simp [hf1, hf0, div_self hN]
  have htpr : tprList data = [0, 1, 1] := by
    unfold tprList
    rw [hthresh]
    simp [ht1, ht0, div_self hP]
  unfold calculate_roc_auc
  rw [hfpr, htpr]
  unfold auc
  rw [if_neg (by norm_num), if_pos (by decide)]
  norm_num [trapz]

lemma pr_auc_perfect (data : List ScoredSample)
    (hperf : ∀ p ∈ data, p.1 = if p.2 then 1 else 0)
    (hpos : 0 < posCount data) (hneg : 0 < negCount data) :
    calculate_pr_auc data = some 1 := by
  obtain ⟨ht1, ht0, hf1, hf0⟩ := counts_perfect data hperf
  have hthresh := thresholdsDesc_perfect data hperf hpos hneg
  have hP : ((posCount data : ℚ)) ≠ 0 := by
    exact_mod_cast Nat.pos_iff_ne_zero.mp hpos
  have hasc : thresholdsAsc data = [0, 1] := by
    unfold thresholdsAsc
    rw [hthresh]
    rfl
  have hrecall : recallList data = [1, 1, 0] := by
    unfold recallList recallAt
    rw [hasc]
    simp [ht0, ht1, div_self hP]
  have hprec : precisionList data =
      [(posCount data : ℚ) / ((posCount data : ℚ) + (negCount data : ℚ)), 1, 1] := by
    unfold precisionList precisionAt
    rw [hasc]
    simp [ht0, ht1, hf0, hf1, div_self hP]
  unfold calculate_pr_auc
  rw [hrecall, hprec]
  unfold auc
  rw [if_neg (by norm_num), if_neg (by decide), if_pos (by decide)]
  norm_num [trapz]

/-- Claim C6: on every non-degenerate evaluation set (at least one positive
and one negative label) the ROC-AUC of `calculate_roc_auc` and the PR-AUC
of `calculate_pr_auc` are defined and lie in [0, 1]; and whenever the
scores perfectly separate the labels (every positive scored 1, every
negative scored 0), both areas equal 1. -/
theorem auc_range_and_perfect (data : List ScoredSample)
    (hpos : 0 < posCount data) (hneg : 0 < negCount data) :
    (∃ v, calculate_roc_auc data = some v ∧ 0 ≤ v ∧ v ≤ 1) ∧
    (∃ v, calculate_pr_auc data = some v ∧ 0 ≤ v ∧ v ≤ 1) ∧
    ((∀ p ∈ data, p.1 = if p.2 then 1 else 0) →
      calculate_roc_auc data = some 1 ∧ calculate_pr_auc data = some 1) :=
  ⟨roc_auc_in_range data hpos hneg, pr_auc_in_range data hpos,
    fun hperf => ⟨roc_auc_perfect data hperf hpos hneg,
      pr_auc_perfect data hperf hpos hneg⟩⟩

/-- Witness for `auc_range_and_perfect` on the two-sample set with one
positive scored 1 and one negative scored 0. -/
theorem auc_range_and_perfect_witness :
    (0 < posCount [((1 : ℚ), true), (0, false)] ∧
     0 < negCount [((1 : ℚ), true), (0, false)]) ∧
    ((∃ v, calculate_roc_auc [((1 : ℚ), true), (0, false)] = some v ∧ 0 ≤ v ∧ v ≤ 1) ∧
     (∃ v, calculate_pr_auc [((1 : ℚ), true), (0, false)] = some v ∧ 0 ≤ v ∧ v ≤ 1) ∧
     ((∀ p ∈ [((1 : ℚ), true), (0, false)], p.1 = if p.2 then 1 else 0) →
       calculate_roc_auc [((1 : ℚ), true), (0, false)] = some 1 ∧
       calculate_pr_auc [((1 : ℚ), true), (0, false)] = some 1)) :=
  ⟨⟨by decide, by decide⟩, auc_range_and_perfect _ (by decide) (by decide)⟩

end DeepXeno
